import Mathlib

/-!
Verification development for the duck_talk session orchestrator.

The definitions below are a shallow embedding of the client-side
orchestration code:

* `Phase`, `SessionState`, `handleServerContent`, `handleFunctionCall`,
  `handleConverseChunk` / `handleConverseDone` / `handleConverseError`,
  `handleGeminiError` embed the `conversePhase` suppression state machine
  and the `handleMessage` / `executeConverse` / `connectGemini` callbacks
  of `gemini.ts`.
* `handleApprove` / `handleReject` compose the approval-store semantics of
  the spec (the store itself is not part of the sources) with the
  continuations that `gemini.ts` passes to `holdForApproval`.
* `ConverseState` / `convStep` embed the generation-tagged
  `AbortController` pattern of `converse.ts`' `stream` (the `mine`
  pattern, as written out in `plans/converse-lifecycle.md`).
* `ChunkBufferState` / `chunkBufferStep` embed `createChunkBuffer` of
  `buffer.ts`.
* `calibrationTrace` models the calibration replay loop from the spec
  (its implementation is not among the sources).

Phase terminology: the spec's binary gate names `MUTED` the phase in
which speech-agent audio frames and output text are dropped, and `RELAY`
the phase in which the speech agent reads the worker's text aloud.  In
the code those are `conversePhase = 'suppressing'` and
`conversePhase = 'relaying'`; the code has a third phase, `'idle'`
(initial, and restored after a terminal stream event), in which audio
plays and output text is appended.
-/

/-- The three values of the `conversePhase` suppression state machine in
`gemini.ts`: `idle → suppressing (tool call) → relaying (first worker
chunk) → idle (stream done)`. -/
inductive Phase where
  | idle
  | suppressing
  | relaying
deriving DecidableEq, Repr

/-- The data captured when `gemini.ts` holds a converse tool call for
approval: the tool-call instruction and the snapshotted transcription. -/
structure HeldApproval where
  instruction : String
  transcription : String
deriving DecidableEq, Repr

/-- The orchestrator state mutated by the `gemini.ts` handlers: the
`conversePhase` variable and the pending approval slot. -/
structure SessionState where
  conversePhase : Phase
  pendingApproval : Option HeldApproval
deriving DecidableEq, Repr

/-- Initial state: `conversePhase = 'idle'`, no pending approval. -/
def sessionInit : SessionState :=
  { conversePhase := Phase.idle, pendingApproval := none }

/-- Observable effects that the handlers request from collaborators:
playback (`player.play` / `player.flush`), data-store mutations
(`commitTurn`, `appendInput`, `appendOutput`, `startTool`, `appendTool`,
`finishTool`, `pushError`), messages back into the speech agent
(`sendToolResponse`, `sendClientContent`), and worker dispatch
(`converseApi.stream`). -/
inductive Obs where
  | play (data : String)
  | flushAudio
  | commitTurn
  | appendInput (t : String)
  | appendOutput (t : String)
  | startTool (name : String)
  | appendTool (t : String)
  | finishTool
  | pushError (m : String)
  | sendToolResponse (status : String)
  | sendClientContent (t : String)
  | dispatch (instruction : String)
deriving DecidableEq, Repr

/-- A `serverContent` message from the speech agent; absent text fields
are the empty string, mirroring the truthiness checks in `gemini.ts`.
`modelTurnAudio` lists the `inlineData.data` of the `modelTurn` parts. -/
structure ServerContent where
  interrupted : Bool
  inputTranscription : String
  outputTranscription : String
  modelTurnAudio : List String
  turnComplete : Bool
deriving DecidableEq, Repr

/-- Embeds the `serverContent` branch of `handleMessage` in `gemini.ts`:
`interrupted` flushes the player and commits the turn and returns early;
`inputTranscription` always appends; `outputTranscription` appends only
while `conversePhase === 'idle'`; `modelTurn` audio parts play only while
`conversePhase !== 'suppressing'`; `turnComplete` commits the turn. -/
def handleServerContent (s : SessionState) (sc : ServerContent) :
    SessionState × List Obs :=
  if sc.interrupted then
    (s, [Obs.flushAudio, Obs.commitTurn])
  else
    let inputObs :=
      if sc.inputTranscription ≠ "" then [Obs.appendInput sc.inputTranscription] else []
    let outputObs :=
      if sc.outputTranscription ≠ "" ∧ s.conversePhase = Phase.idle then
        [Obs.appendOutput sc.outputTranscription]
      else []
    let audioObs :=
      sc.modelTurnAudio.filterMap fun d =>
        if d ≠ "" ∧ s.conversePhase ≠ Phase.suppressing then some (Obs.play d) else none
    let turnObs := if sc.turnComplete then [Obs.commitTurn] else []
    (s, inputObs ++ outputObs ++ audioObs ++ turnObs)

/-- A function call inside a `toolCall` message; for the `converse` tool
the relevant argument is `args.instruction`. -/
structure FunctionCall where
  name : String
  instruction : String
deriving DecidableEq, Repr

/-- The utterance snapshot taken in learning mode before the turn buffer
is cleared (`data.snapshotUtterance()`). -/
structure Utterance where
  transcription : String
deriving DecidableEq, Repr

/-- Embeds the per-function-call body of the `toolCall` branch of
`handleMessage`: `startTool`; for `converse`, enter `suppressing`, flush
queued audio, send the SILENT tool response, then either hold for
approval (learning mode, `utterance` present) or run `executeConverse`
immediately, which dispatches the instruction to the worker stream.
Other tools run `handleToolCall` and report their result. -/
def handleFunctionCall (s : SessionState) (utterance : Option Utterance)
    (fc : FunctionCall) : SessionState × List Obs :=
  if fc.name = "converse" then
    let s1 : SessionState := { s with conversePhase := Phase.suppressing }
    let obs1 := [Obs.startTool fc.name, Obs.flushAudio, Obs.sendToolResponse "started"]
    match utterance with
    | some u =>
        ({ s1 with pendingApproval := some ⟨fc.instruction, u.transcription⟩ }, obs1)
    | none => (s1, obs1 ++ [Obs.dispatch fc.instruction])
  else
    (s, [Obs.startTool fc.name, Obs.appendTool fc.name, Obs.finishTool,
         Obs.sendToolResponse "result"])

/-- Embeds the whole `toolCall` branch: snapshot (passed in as
`utterance`), `commitTurn`, then the loop over `functionCalls`. -/
def handleToolCallMsg (s : SessionState) (utterance : Option Utterance)
    (fcs : List FunctionCall) : SessionState × List Obs :=
  fcs.foldl
    (fun acc fc =>
      let r := handleFunctionCall acc.1 utterance fc
      (r.1, acc.2 ++ r.2))
    (s, [Obs.commitTurn])

/-- Embeds `executeConverse`'s `onChunk` callback: append the worker text
to the open tool result; then (the session handle being live) transition
`suppressing → relaying` on the first chunk and feed the text back to the
speech agent with the `[CLAUDE]` prefix. -/
def handleConverseChunk (s : SessionState) (text : String) :
    SessionState × List Obs :=
  let s' :=
    if s.conversePhase = Phase.suppressing then
      { s with conversePhase := Phase.relaying }
    else s
  (s', [Obs.appendTool text, Obs.sendClientContent ("[CLAUDE]: " ++ text)])

/-- Embeds `executeConverse`'s `onDone` callback: `conversePhase = 'idle'`
and finish the open tool. -/
def handleConverseDone (s : SessionState) : SessionState × List Obs :=
  ({ s with conversePhase := Phase.idle }, [Obs.finishTool])

/-- Embeds `executeConverse`'s `onError` callback: `conversePhase =
'idle'`, finish the open tool, push the error. -/
def handleConverseError (s : SessionState) (msg : String) :
    SessionState × List Obs :=
  ({ s with conversePhase := Phase.idle }, [Obs.finishTool, Obs.pushError msg])

/-- Embeds the `onerror` callback of `connectGemini`: the only effect is
`data.pushError` with the message; no other state is touched. -/
def handleGeminiError (s : SessionState) (msg : String) :
    SessionState × List Obs :=
  (s, [Obs.pushError ("Error: " ++ msg)])

/-- Modelled from the spec: `approve(finalIntent)` of the approval store
(`data.svelte.ts`, not among the sources) invokes `onApprove(finalIntent)`
and then clears the pending approval.  The `onApprove` continuation that
`gemini.ts` registers is `executeConverse`, which dispatches its argument
to the worker stream. -/
def handleApprove (s : SessionState) (finalIntent : String) :
    SessionState × List Obs :=
  match s.pendingApproval with
  | some _ => ({ s with pendingApproval := none }, [Obs.dispatch finalIntent])
  | none => (s, [])

/-- Modelled from the spec: `reject()` of the approval store
(`data.svelte.ts`, not among the sources) invokes `onReject()` and then
clears the pending approval.  The `onReject` continuation that
`gemini.ts` registers is the cancel callback, which resets
`conversePhase` to `'idle'`. -/
def handleReject (s : SessionState) : SessionState × List Obs :=
  match s.pendingApproval with
  | some _ =>
      ({ s with conversePhase := Phase.idle, pendingApproval := none }, [])
  | none => (s, [])

/-- The event alphabet of the orchestrator: speech-agent messages,
worker-stream callbacks, approval decisions, and the speech-agent
transport error callback. -/
inductive Event where
  | serverContent (sc : ServerContent)
  | toolCall (utterance : Option Utterance) (fcs : List FunctionCall)
  | converseChunk (text : String)
  | converseDone
  | converseError (msg : String)
  | approve (finalIntent : String)
  | reject
  | geminiError (msg : String)
deriving DecidableEq, Repr

/-- Dispatch one event to the matching handler. -/
def step (s : SessionState) : Event → SessionState × List Obs
  | Event.serverContent sc => handleServerContent s sc
  | Event.toolCall u fcs => handleToolCallMsg s u fcs
  | Event.converseChunk t => handleConverseChunk s t
  | Event.converseDone => handleConverseDone s
  | Event.converseError m => handleConverseError s m
  | Event.approve fi => handleApprove s fi
  | Event.reject => handleReject s
  | Event.geminiError m => handleGeminiError s m

/-- State after a sequence of events. -/
def runState (s : SessionState) : List Event → SessionState
  | [] => s
  | e :: rest => runState (step s e).1 rest

/-- Number of `suppressing → relaying` phase transitions fired while
handling a sequence of events. -/
def relayTransitions (s : SessionState) : List Event → Nat
  | [] => 0
  | e :: rest =>
      let s' := (step s e).1
      (if s.conversePhase = Phase.suppressing ∧ s'.conversePhase = Phase.relaying
       then 1 else 0)
        + relayTransitions s' rest

/-- Speech-agent chatter: a `serverContent` message (acknowledgments,
echoes, transcriptions, audio, turn boundaries, interrupts). -/
def isChatter : Event → Bool
  | Event.serverContent _ => true
  | _ => false

/-- The audio parts of a list of observations (what reaches
`player.play`). -/
def playObs (l : List Obs) : List String :=
  l.filterMap fun o => match o with | Obs.play d => some d | _ => none

/-- The speech-agent output-text appended to the transcript
(`data.appendOutput`). -/
def outTextObs (l : List Obs) : List String :=
  l.filterMap fun o => match o with | Obs.appendOutput t => some t | _ => none

/-- The user input-transcription appended to the transcript
(`data.appendInput`). -/
def inTextObs (l : List Obs) : List String :=
  l.filterMap fun o => match o with | Obs.appendInput t => some t | _ => none

/-- Claim C1 as stated: a speech-agent audio chunk is forwarded to the
playback collaborator only while the phase is RELAY (`relaying`). -/
def audioOnlyWhileRelaying : Prop :=
  ∀ (s : SessionState) (sc : ServerContent) (d : String),
    Obs.play d ∈ (handleServerContent s sc).2 → s.conversePhase = Phase.relaying

/-- Claim C2 as stated: immediately after a terminal `{done}`/`{error}`
worker event or a speech-agent `interrupted` signal, the phase is MUTED
(`suppressing`). -/
def mutedAfterTerminal : Prop :=
  ∀ (s : SessionState) (m i o : String) (a : List String) (t : Bool),
    (step s Event.converseDone).1.conversePhase = Phase.suppressing ∧
    (step s (Event.converseError m)).1.conversePhase = Phase.suppressing ∧
    (step s (Event.serverContent ⟨true, i, o, a, t⟩)).1.conversePhase =
      Phase.suppressing

/-- Claim C8 as stated: after `reject()` the phase remains MUTED
(`suppressing`, the phase held throughout the approval wait). -/
def rejectKeepsMuted : Prop :=
  ∀ pa : HeldApproval,
    (handleReject ⟨Phase.suppressing, some pa⟩).1.conversePhase =
      Phase.suppressing

/-- Claim C9 as stated: a speech-agent transport failure forces the phase
to MUTED (`suppressing`) and auto-rejects a pending approval. -/
def transportFailureForcesMuted : Prop :=
  ∀ (s : SessionState) (m : String),
    (handleGeminiError s m).1.conversePhase = Phase.suppressing ∧
    (handleGeminiError s m).1.pendingApproval = none

/-- The `converse.ts` stream state (`plans/converse-lifecycle.md`):
generations number the `stream()` calls, `current` is the module-level
`controller` variable (the generation whose `AbortController` it holds),
and `aborted` records every generation whose controller was aborted. -/
structure ConverseState where
  nextGen : Nat
  current : Option Nat
  aborted : List Nat
deriving DecidableEq, Repr

/-- Initial `converse.ts` state: no stream has run, `controller = null`. -/
def converseInit : ConverseState :=
  { nextGen := 0, current := none, aborted := [] }

/-- Callbacks a `stream()` invocation fires into `gemini.ts`, tagged with
the generation of the invocation that fired them. -/
inductive StreamReport where
  | chunkCb (gen : Nat) (text : String)
  | doneCb (gen : Nat)
  | errorCb (gen : Nat)
deriving DecidableEq, Repr

/-- Asynchronous events of the `converse.ts` stream lifecycle: a new
`stream()` call, an SSE chunk of generation `gen` arriving, the stream of
generation `gen` ending, or its fetch failing. -/
inductive ConvEvent where
  | startStream
  | chunkArrives (gen : Nat) (text : String)
  | doneArrives (gen : Nat)
  | failArrives (gen : Nat)
deriving DecidableEq, Repr

/-- Embeds the `mine` pattern of `stream()`:
`controller?.abort(); const mine = new AbortController(); controller = mine`
on start; an aborted fetch delivers no further chunks and no completion;
the catch path checks `mine.signal.aborted` and exits silently when the
abort was intentional, firing `onError` otherwise; the finally path
cleans up only when `controller === mine`. -/
def convStep (s : ConverseState) : ConvEvent → ConverseState × List StreamReport
  | ConvEvent.startStream =>
      let abortedNow :=
        match s.current with
        | some g => g :: s.aborted
        | none => s.aborted
      ({ nextGen := s.nextGen + 1, current := some s.nextGen, aborted := abortedNow },
       [])
  | ConvEvent.chunkArrives g t =>
      if g ∈ s.aborted then (s, []) else (s, [StreamReport.chunkCb g t])
  | ConvEvent.doneArrives g =>
      if g ∈ s.aborted then (s, [])
      else
        (if s.current = some g then { s with current := none } else s,
         [StreamReport.doneCb g])
  | ConvEvent.failArrives g =>
      if g ∈ s.aborted then
        (if s.current = some g then { s with current := none } else s, [])
      else
        (if s.current = some g then { s with current := none } else s,
         [StreamReport.errorCb g])

/-- State after a sequence of `converse.ts` events. -/
def convRunState (s : ConverseState) : List ConvEvent → ConverseState
  | [] => s
  | e :: rest => convRunState (convStep s e).1 rest

/-- The generation tag of a fired callback. -/
def reportGen : StreamReport → Nat
  | StreamReport.chunkCb g _ => g
  | StreamReport.doneCb g => g
  | StreamReport.errorCb g => g

/-- The invariant of the generation-tag pattern: the live controller
always belongs to the most recently started generation, that generation
is not aborted, and only started generations are ever aborted. -/
def ConvInv (s : ConverseState) : Prop :=
  (∀ g : Nat, s.current = some g → g + 1 = s.nextGen ∧ g ∉ s.aborted) ∧
  (∀ g ∈ s.aborted, g < s.nextGen)

/-- Internal state of `createChunkBuffer` in `buffer.ts`: the accumulated
text `buf` and whether a flush timer is pending. -/
structure ChunkBufferState where
  buf : String
  timerPending : Bool
deriving DecidableEq, Repr

/-- A fresh chunk buffer: empty text, no timer. -/
def chunkBufferInit : ChunkBufferState := { buf := "", timerPending := false }

/-- Calls on a chunk buffer. -/
inductive BufEvent where
  | push (text : String)
  | flush
  | clear
deriving DecidableEq, Repr

/-- Embeds `push`/`flush`/`clear` of `createChunkBuffer`; the returned
list is the argument list of the `onFlush` calls made during the call
(empty or a singleton).  `push` appends and ensures a timer is pending;
`flush` clears the timer and, when `buf` is non-empty, emits it and
empties it; `clear` clears the timer and empties `buf` silently. -/
def chunkBufferStep (s : ChunkBufferState) :
    BufEvent → ChunkBufferState × List String
  | BufEvent.push t => ({ buf := s.buf ++ t, timerPending := true }, [])
  | BufEvent.flush =>
      ({ buf := "", timerPending := false }, if s.buf = "" then [] else [s.buf])
  | BufEvent.clear => ({ buf := "", timerPending := false }, [])

/-- Run a sequence of chunk-buffer calls, collecting the state and all
`onFlush` arguments in order. -/
def chunkBufferRun (s : ChunkBufferState) :
    List BufEvent → ChunkBufferState × List String
  | [] => (s, [])
  | e :: rest =>
      let r := chunkBufferStep s e
      let r2 := chunkBufferRun r.1 rest
      (r2.1, r.2 ++ r2.2)

/-- The in-order concatenation of all text pushed since the most recent
flush or clear (the claim's reference value for a flush). -/
def pendingText (evs : List BufEvent) : String :=
  evs.foldl
    (fun acc e => match e with | BufEvent.push t => acc ++ t | _ => "")
    ""

/-- Modelled from the spec: the calibration replay loop (§4.5 of the
spec; its implementation lives in the live-session connect path, which is
not among the sources — only the verified pattern in the STT-correction
research log describes it).  Actions of one session start, in order. -/
inductive CalAct where
  | feedCorrectionAudio (i : Nat)
  | correctionCompleted (i : Nat)
  | correctionTimedOut (i : Nat)
  | injectContextPair (i : Nat)
  | injectLiveSentinel
  | armLiveTurnCompleteListener
  | enableMicrophone
deriving DecidableEq, Repr

/-- Modelled from the spec: handling of one queued STT correction — feed
its audio, then either its turn-complete signal arrives (and the text
context pair is injected) or the bounded timeout fires and the correction
is skipped. -/
def correctionActs (i : Nat) (timedOut : Bool) : List CalAct :=
  CalAct.feedCorrectionAudio i ::
    (if timedOut then [CalAct.correctionTimedOut i]
     else [CalAct.correctionCompleted i, CalAct.injectContextPair i])

/-- Modelled from the spec: the full calibration trace for `outcomes`
queued corrections (`outcomes.get i = true` when correction `i` timed
out): every correction is processed in order, then the live-mode sentinel
is injected, then the live turn-complete listener is armed, then the
microphone is enabled. -/
def calibrationTrace (outcomes : List Bool) : List CalAct :=
  ((List.range outcomes.length).flatMap fun i => correctionActs i (outcomes.getD i false))
    ++ [CalAct.injectLiveSentinel, CalAct.armLiveTurnCompleteListener,
        CalAct.enableMicrophone]

theorem step_serverContent_state (s : SessionState) (sc : ServerContent) :
    (step s (Event.serverContent sc)).1 = s := by
  simp only [step, handleServerContent]
  split <;> rfl

theorem chatter_step_state (s : SessionState) (e : Event)
    (h : isChatter e = true) : (step s e).1 = s := by
  cases e <;> simp [isChatter] at h
  exact step_serverContent_state s _

theorem chatter_runState (s : SessionState) (l : List Event)
    (h : ∀ e ∈ l, isChatter e = true) : runState s l = s := by
  induction l with
  | nil => rfl
  | cons e rest ih =>
      have he := h e (List.mem_cons_self e rest)
      have hs := chatter_step_state s e he
      simp only [runState, hs]
      exact ih fun x hx => h x (List.mem_cons_of_mem e hx)

theorem chatter_relayTransitions (s : SessionState) (l : List Event)
    (h : ∀ e ∈ l, isChatter e = true) : relayTransitions s l = 0 := by
  induction l generalizing s with
  | nil => rfl
  | cons e rest ih =>
      have he := h e (List.mem_cons_self e rest)
      have hs := chatter_step_state s e he
      simp only [relayTransitions, hs]
      rw [if_neg, ih _ fun x hx => h x (List.mem_cons_of_mem e hx)]
      rintro ⟨h1, h2⟩
      rw [h1] at h2
      exact Phase.noConfusion h2

theorem relaying_step_state (s : SessionState) (e : Event)
    (hs : s.conversePhase = Phase.relaying)
    (he : isChatter e = true ∨ ∃ u, e = Event.converseChunk u) :
    (step s e).1 = s := by
  rcases he with he | ⟨u, rfl⟩
  · exact chatter_step_state s e he
  · simp [step, handleConverseChunk, hs]

theorem relaying_relayTransitions (s : SessionState) (l : List Event)
    (hs : s.conversePhase = Phase.relaying)
    (h : ∀ e ∈ l, isChatter e = true ∨ ∃ u, e = Event.converseChunk u) :
    relayTransitions s l = 0 := by
  induction l generalizing s with
  | nil => rfl
  | cons e rest ih =>
      have hstep := relaying_step_state s e hs (h e (List.mem_cons_self e rest))
      simp only [relayTransitions, hstep]
      rw [if_neg, ih s hs fun x hx => h x (List.mem_cons_of_mem e hx)]
      rintro ⟨h1, _⟩
      rw [hs] at h1
      exact Phase.noConfusion h1

theorem converse_dispatch_state (s : SessionState) (instr : String) :
    (step s (Event.toolCall none [⟨"converse", instr⟩])).1 =
      { s with conversePhase := Phase.suppressing } := rfl

/-- Claim C1, counterexample: in the initial state the phase is `idle`,
not `relaying`, yet a speech-agent audio chunk is forwarded to
`player.play` — audio is not forwarded only while the phase is RELAY. -/
theorem c1_counterexample : ¬ audioOnlyWhileRelaying := by
  intro h
  have h1 := h sessionInit ⟨false, "", "", ["a"], false⟩ "a" (by decide)
  exact absurd h1 (by decide)

/-- Claim C1, amended: a speech-agent audio chunk is forwarded to the
playback collaborator exactly when the phase is not MUTED
(`suppressing`) — that is, while `relaying` or while `idle` — and while
MUTED both speech-agent audio frames and speech-agent output text are
dropped (output text is appended only while `idle`). -/
theorem c1_audio_and_text_gating (s : SessionState) (sc : ServerContent)
    (d t : String) :
    (Obs.play d ∈ (handleServerContent s sc).2 ↔
      sc.interrupted = false ∧ d ∈ sc.modelTurnAudio ∧ d ≠ "" ∧
        s.conversePhase ≠ Phase.suppressing) ∧
    (Obs.appendOutput t ∈ (handleServerContent s sc).2 ↔
      sc.interrupted = false ∧ t = sc.outputTranscription ∧ t ≠ "" ∧
        s.conversePhase = Phase.idle) := by
  cases hI : sc.interrupted <;> simp [handleServerContent, hI] <;> aesop

/-- Claim C2, counterexample: handling a worker `{done}` event sets the
phase to `idle`, not to MUTED (`suppressing`). -/
theorem c2_counterexample : ¬ mutedAfterTerminal := by
  intro h
  have h1 := (h sessionInit "" "" "" [] false).1
  exact absurd h1 (by decide)

/-- Claim C2, amended: immediately after a terminal `{done}` or `{error}`
event of the worker invocation the phase is `idle` (the default phase, in
which speech-agent audio passes through again); a user-interrupt signal
flushes queued playback audio and commits the open turn but leaves the
phase unchanged. -/
theorem c2_terminal_events (s : SessionState) (m i o : String)
    (a : List String) (t : Bool) :
    (step s Event.converseDone).1.conversePhase = Phase.idle ∧
    (step s (Event.converseError m)).1.conversePhase = Phase.idle ∧
    step s (Event.serverContent ⟨true, i, o, a, t⟩) =
      (s, [Obs.flushAudio, Obs.commitTurn]) := by
  refine ⟨rfl, rfl, ?_⟩
  simp [step, handleServerContent]

/-- Claim C6: a speech-agent message carrying input-transcription text
(the user's own recognized speech) passes it to the transcript for every
value of the phase, including `suppressing` (MUTED) and `relaying`
(mid-invocation); `x` is appended exactly when it is the message's
non-empty input-transcription text. -/
theorem c6_input_passthrough (s : SessionState) (i o : String)
    (a : List String) (t : Bool) (x : String) :
    Obs.appendInput x ∈ (handleServerContent s ⟨false, i, o, a, t⟩).2 ↔
      x = i ∧ i ≠ "" := by
  simp [handleServerContent]
  aesop

/-- Claim C7: approving a pending approval with a final intent string
dispatches exactly that string to the worker (not the originally captured
instruction, when they differ) and clears the pending approval; the
phase is untouched. -/
theorem c7_approve_final_intent (p : Phase) (pa : HeldApproval)
    (finalIntent : String) :
    handleApprove ⟨p, some pa⟩ finalIntent =
      (⟨p, none⟩, [Obs.dispatch finalIntent]) := rfl

/-- Claim C8, counterexample: rejecting a pending approval held while the
phase is MUTED (`suppressing`) does not keep the phase MUTED — the cancel
callback registered by `gemini.ts` resets it to `idle`. -/
theorem c8_counterexample : ¬ rejectKeepsMuted := fun h =>
  absurd (h ⟨"a", "b"⟩) (by decide)

/-- Claim C8, amended: rejecting a pending approval runs the onReject
continuation (the `gemini.ts` cancel callback, which resets the phase to
`idle`) and clears the pending approval; in the resulting `idle` phase
speech-agent audio and output text pass through again. -/
theorem c8_reject (p : Phase) (pa : HeldApproval) :
    handleReject ⟨p, some pa⟩ = (⟨Phase.idle, none⟩, []) := rfl

/-- Claim C9, counterexample: a speech-agent transport error neither
forces the phase to MUTED (`suppressing`) nor auto-rejects the pending
approval — from a `relaying` state with a pending approval, both
survive. -/
theorem c9_counterexample : ¬ transportFailureForcesMuted := by
  intro h
  have h1 := (h ⟨Phase.relaying, some ⟨"a", "b"⟩⟩ "boom").1
  exact absurd h1 (by decide)

/-- Claim C9, amended: a speech-agent transport error only surfaces a
session-level error message, leaving the phase, the pending approval and
every other piece of state untouched; a worker-stream error surfaces the
error, finishes the open tool, and resets the phase to `idle` (not to a
muted state), also leaving the pending approval in place. -/
theorem c9_transport_failure (s : SessionState) (m : String) :
    handleGeminiError s m = (s, [Obs.pushError ("Error: " ++ m)]) ∧
    handleConverseError s m =
      ({ s with conversePhase := Phase.idle },
       [Obs.finishTool, Obs.pushError m]) := ⟨rfl, rfl⟩

theorem relayTransitions_append (s : SessionState) (l1 l2 : List Event) :
    relayTransitions s (l1 ++ l2) =
      relayTransitions s l1 + relayTransitions (runState s l1) l2 := by
  induction l1 generalizing s with
  | nil => simp [relayTransitions, runState]
  | cons e rest ih =>
      show relayTransitions s (e :: (rest ++ l2)) = _
      simp only [relayTransitions, runState]
      rw [ih]
      omega

/-- Claim C3: dispatching a `converse` tool call enters `suppressing`
(MUTED); across any run of speech-agent chatter before the first worker
chunk the phase stays `suppressing` and no `suppressing → relaying`
transition fires (in particular none fires at dispatch time); the first
worker chunk fires the transition to `relaying`; and over the whole
trace — dispatch, chatter, first chunk, then further chunks and
chatter — the transition fires exactly once. -/
theorem c3_first_chunk_transition (s0 : SessionState) (instr t : String)
    (pre post : List Event)
    (hpre : ∀ e ∈ pre, isChatter e = true)
    (hpost : ∀ e ∈ post, isChatter e = true ∨ ∃ u, e = Event.converseChunk u) :
    relayTransitions s0
        (Event.toolCall none [⟨"converse", instr⟩]
          :: (pre ++ Event.converseChunk t :: post)) = 1 ∧
    (runState s0 (Event.toolCall none [⟨"converse", instr⟩] :: pre)).conversePhase
        = Phase.suppressing ∧
    relayTransitions s0 (Event.toolCall none [⟨"converse", instr⟩] :: pre) = 0 ∧
    (step (runState s0 (Event.toolCall none [⟨"converse", instr⟩] :: pre))
        (Event.converseChunk t)).1.conversePhase = Phase.relaying := by
  have hdisp := converse_dispatch_state s0 instr
  have hpresrv := chatter_runState { s0 with conversePhase := Phase.suppressing } pre hpre
  have hrunpre :
      runState s0 (Event.toolCall none [⟨"converse", instr⟩] :: pre) =
        { s0 with conversePhase := Phase.suppressing } := by
    simp only [runState, hdisp]
    exact hpresrv
  have hchunk :
      (step { s0 with conversePhase := Phase.suppressing }
          (Event.converseChunk t)).1 =
        { s0 with conversePhase := Phase.relaying } := by
    simp [step, handleConverseChunk]
  refine ⟨?_, ?_, ?_, ?_⟩
  · simp only [relayTransitions, hdisp]
    rw [if_neg (by rintro ⟨_, h2⟩; exact Phase.noConfusion h2)]
    rw [relayTransitions_append, chatter_relayTransitions _ pre hpre, hpresrv]
    simp only [relayTransitions, hchunk]
    rw [relaying_relayTransitions _ post rfl hpost]
    simp
  · rw [hrunpre]
  · simp only [relayTransitions, hdisp]
    rw [if_neg (by rintro ⟨_, h2⟩; exact Phase.noConfusion h2)]
    rw [chatter_relayTransitions _ pre hpre]
  · rw [hrunpre, hchunk]

/-- Witness for C3 at a concrete trace: one chatter message between
dispatch and first chunk, one further chunk after it. -/
theorem c3_first_chunk_transition_witness :
    relayTransitions sessionInit
        (Event.toolCall none [⟨"converse", "list files"⟩]
          :: ([Event.serverContent ⟨false, "", "ok", [], false⟩]
                ++ Event.converseChunk "hello" :: [Event.converseChunk "more"])) = 1 :=
  (c3_first_chunk_transition sessionInit "list files" "hello"
      [Event.serverContent ⟨false, "", "ok", [], false⟩]
      [Event.converseChunk "more"]
      (by intro e he; simp only [List.mem_singleton] at he; subst he; rfl)
      (by
        intro e he
        simp only [List.mem_singleton] at he
        subst he
        exact Or.inr ⟨"more", rfl⟩)).1

theorem convInv_step (s : ConverseState) (e : ConvEvent) (h : ConvInv s) :
    ConvInv (convStep s e).1 := by
  obtain ⟨hcur, habove⟩ := h
  cases e with
  | startStream =>
      constructor
      · intro g hg
        simp only [convStep] at hg
        injection hg with hg
        subst hg
        refine ⟨rfl, ?_⟩
        simp only [convStep]
        cases hc : s.current with
        | none =>
            simp only [hc]
            intro hmem
            exact absurd (habove _ hmem) (lt_irrefl _)
        | some g0 =>
            simp only [hc, List.mem_cons]
            rintro (rfl | hmem)
            · exact absurd (hcur _ hc).1 (by omega)
            · exact absurd (habove _ hmem) (lt_irrefl _)
      · intro g hg
        simp only [convStep] at hg
        cases hc : s.current with
        | none =>
            rw [hc] at hg
            exact Nat.lt_succ_of_lt (habove _ hg)
        | some g0 =>
            rw [hc] at hg
            rcases List.mem_cons.mp hg with rfl | hmem
            · have := (hcur _ hc).1
              simp only [convStep]
              omega
            · exact Nat.lt_succ_of_lt (habove _ hmem)
  | chunkArrives g t =>
      simp only [convStep]
      split <;> exact ⟨hcur, habove⟩
  | doneArrives g =>
      simp only [convStep]
      split
      · exact ⟨hcur, habove⟩
      · split
        · constructor
          · intro g' hg'
            simp at hg'
          · exact habove
        · exact ⟨hcur, habove⟩
  | failArrives g =>
      simp only [convStep]
      split <;> split
      · constructor
        · intro g' hg'
          simp at hg'
        · exact habove
      · exact ⟨hcur, habove⟩
      · constructor
        · intro g' hg'
          simp at hg'
        · exact habove
      · exact ⟨hcur, habove⟩

theorem convInv_init : ConvInv converseInit := by
  constructor
  · intro g hg
    simp [converseInit] at hg
  · intro g hg
    simp [converseInit] at hg

theorem convInv_run (evs : List ConvEvent) :
    ConvInv (convRunState converseInit evs) := by
  have hgen : ∀ (s : ConverseState), ConvInv s →
      ConvInv (convRunState s evs) := by
    induction evs with
    | nil => intro s hs; exact hs
    | cons e rest ih =>
        intro s hs
        exact ih _ (convInv_step s e hs)
  exact hgen converseInit convInv_init

/-- Claim C4: in the generation-tagged stream pattern, a superseded
(aborted) invocation delivers no chunk, no completion and — the abort
being intentional — no `{error}` to its caller; starting a new stream
aborts the previous live one; an aborted generation stays aborted under
every event; any callback that does fire carries a non-aborted
generation; and after any event sequence the live controller belongs to
the most recently started (highest) generation, which is not aborted. -/
theorem c4_generation_guard :
    (∀ (s : ConverseState) (g : Nat) (t : String), g ∈ s.aborted →
        (convStep s (ConvEvent.chunkArrives g t)).2 = [] ∧
        (convStep s (ConvEvent.doneArrives g)).2 = [] ∧
        (convStep s (ConvEvent.failArrives g)).2 = []) ∧
    (∀ (s : ConverseState) (g : Nat), s.current = some g →
        g ∈ (convStep s ConvEvent.startStream).1.aborted) ∧
    (∀ (s : ConverseState) (e : ConvEvent) (g : Nat), g ∈ s.aborted →
        g ∈ (convStep s e).1.aborted) ∧
    (∀ (s : ConverseState) (e : ConvEvent) (r : StreamReport),
        r ∈ (convStep s e).2 → reportGen r ∉ s.aborted) ∧
    (∀ evs : List ConvEvent, ConvInv (convRunState converseInit evs)) := by
  refine ⟨?_, ?_, ?_, ?_, convInv_run⟩
  · intro s g t h
    refine ⟨?_, ?_, ?_⟩ <;> simp [convStep, h]
  · intro s g h
    simp [convStep, h]
  · intro s e g h
    cases e with
    | startStream =>
        simp only [convStep]
        cases hc : s.current with
        | none => exact h
        | some g0 => exact List.mem_cons_of_mem g0 h
    | chunkArrives g' t =>
        simp only [convStep]
        split <;> exact h
    | doneArrives g' =>
        simp only [convStep]
        split
        · exact h
        · split <;> exact h
    | failArrives g' =>
        simp only [convStep]
        split <;> split <;> exact h
  · intro s e r hr
    cases e with
    | startStream => simp [convStep] at hr
    | chunkArrives g t =>
        simp only [convStep] at hr
        split at hr
        · simp at hr
        · simp only [List.mem_singleton] at hr
          subst hr
          assumption
    | doneArrives g =>
        simp only [convStep] at hr
        split at hr
        · simp at hr
        · simp only [List.mem_singleton] at hr
          subst hr
          assumption
    | failArrives g =>
        simp only [convStep] at hr
        split at hr
        · simp at hr
        · simp only [List.mem_singleton] at hr
          subst hr
          assumption

/-- Witness for C4 at concrete states: generation 0 has been superseded
by generation 1; a stale chunk and a stale failure of generation 0 are
silent, starting a third stream aborts generation 1, and the invariant
holds after two dispatches. -/
theorem c4_generation_guard_witness :
    (convStep ⟨2, some 1, [0]⟩ (ConvEvent.chunkArrives 0 "stale")).2 = [] ∧
    (convStep ⟨2, some 1, [0]⟩ (ConvEvent.failArrives 0)).2 = [] ∧
    (1 : Nat) ∈ (convStep ⟨2, some 1, [0]⟩ ConvEvent.startStream).1.aborted ∧
    ConvInv (convRunState converseInit
      [ConvEvent.startStream, ConvEvent.startStream]) :=
  ⟨(c4_generation_guard.1 ⟨2, some 1, [0]⟩ 0 "stale" (by decide)).1,
   (c4_generation_guard.1 ⟨2, some 1, [0]⟩ 0 "stale" (by decide)).2.2,
   c4_generation_guard.2.1 ⟨2, some 1, [0]⟩ 1 rfl,
   c4_generation_guard.2.2.2.2 [ConvEvent.startStream, ConvEvent.startStream]⟩

/-- Claim C5: in the modelled calibration loop, the live-mode sentinel is
injected only after each of the N queued corrections has either completed
(its turn-complete signal received) or timed out; the live
turn-complete listener is armed only after the sentinel; and the
microphone is enabled only after the sentinel. -/
theorem c5_calibration_ordering (outcomes : List Bool) :
    ∃ pre : List CalAct,
      calibrationTrace outcomes =
          pre ++ [CalAct.injectLiveSentinel, CalAct.armLiveTurnCompleteListener,
                  CalAct.enableMicrophone] ∧
      (∀ i, i < outcomes.length →
          CalAct.correctionCompleted i ∈ pre ∨ CalAct.correctionTimedOut i ∈ pre) ∧
      CalAct.injectLiveSentinel ∉ pre ∧
      CalAct.armLiveTurnCompleteListener ∉ pre ∧
      CalAct.enableMicrophone ∉ pre := by
  refine ⟨(List.range outcomes.length).flatMap
      (fun i => correctionActs i (outcomes.getD i false)), rfl, ?_, ?_, ?_, ?_⟩
  · intro i hi
    have him : i ∈ List.range outcomes.length := List.mem_range.mpr hi
    cases hto : outcomes.getD i false with
    | true =>
        right
        refine List.mem_flatMap.mpr ⟨i, him, ?_⟩
        simp only [correctionActs, hto]
        simp
    | false =>
        left
        refine List.mem_flatMap.mpr ⟨i, him, ?_⟩
        simp only [correctionActs, hto]
        simp
  · intro h
    rcases List.mem_flatMap.mp h with ⟨i, _, hmem⟩
    cases hto : outcomes.getD i false <;>
      simp only [correctionActs, hto] at hmem <;> simp at hmem
  · intro h
    rcases List.mem_flatMap.mp h with ⟨i, _, hmem⟩
    cases hto : outcomes.getD i false <;>
      simp only [correctionActs, hto] at hmem <;> simp at hmem
  · intro h
    rcases List.mem_flatMap.mp h with ⟨i, _, hmem⟩
    cases hto : outcomes.getD i false <;>
      simp only [correctionActs, hto] at hmem <;> simp at hmem

/-- Witness for C5 at a concrete queue: two corrections, the first
completing and the second timing out. -/
theorem c5_calibration_ordering_witness :
    ∃ pre : List CalAct,
      calibrationTrace [false, true] =
          pre ++ [CalAct.injectLiveSentinel, CalAct.armLiveTurnCompleteListener,
                  CalAct.enableMicrophone] ∧
      (∀ i, i < (2 : Nat) →
          CalAct.correctionCompleted i ∈ pre ∨ CalAct.correctionTimedOut i ∈ pre) ∧
      CalAct.injectLiveSentinel ∉ pre ∧
      CalAct.armLiveTurnCompleteListener ∉ pre ∧
      CalAct.enableMicrophone ∉ pre :=
  c5_calibration_ordering [false, true]

theorem chunkBufferRun_buf (s : ChunkBufferState) (evs : List BufEvent) :
    (chunkBufferRun s evs).1.buf =
      evs.foldl
        (fun acc e => match e with | BufEvent.push t => acc ++ t | _ => "")
        s.buf := by
  induction evs generalizing s with
  | nil => rfl
  | cons e rest ih =>
      cases e <;> simp [chunkBufferRun, chunkBufferStep, ih]

theorem chunkBufferRun_no_empty (s : ChunkBufferState) (evs : List BufEvent) :
    "" ∉ (chunkBufferRun s evs).2 := by
  induction evs generalizing s with
  | nil => simp [chunkBufferRun]
  | cons e rest ih =>
      cases e with
      | push t =>
          simpa [chunkBufferRun, chunkBufferStep] using ih _
      | flush =>
          simp only [chunkBufferRun, chunkBufferStep]
          by_cases hb : s.buf = ""
          · simpa [hb] using ih _
          · rw [if_neg hb]
            simp only [List.singleton_append, List.mem_cons, not_or]
            exact ⟨fun h => hb h.symm, ih _⟩
      | clear =>
          simpa [chunkBufferRun, chunkBufferStep] using ih _

/-- Claim C10: after any sequence of push, flush and clear calls on a
fresh chunk buffer, the buffer text is exactly the in-order
concatenation of all text pushed since the previous flush or clear; a
flush at that point calls onFlush exactly once with that concatenation
when it is non-empty and zero times when it is empty; after a flush or a
clear the buffer is empty and no timer is pending; and onFlush is never
called with the empty string. -/
theorem c10_chunk_buffer (evs : List BufEvent) (s : ChunkBufferState) :
    (chunkBufferRun chunkBufferInit evs).1.buf = pendingText evs ∧
    (chunkBufferStep (chunkBufferRun chunkBufferInit evs).1 BufEvent.flush).2 =
      (if pendingText evs = "" then [] else [pendingText evs]) ∧
    (chunkBufferStep s BufEvent.flush).1 = chunkBufferInit ∧
    chunkBufferStep s BufEvent.clear = (chunkBufferInit, []) ∧
    "" ∉ (chunkBufferRun chunkBufferInit evs).2 := by
  have hbuf : (chunkBufferRun chunkBufferInit evs).1.buf = pendingText evs :=
    chunkBufferRun_buf chunkBufferInit evs
  refine ⟨hbuf, ?_, rfl, rfl, chunkBufferRun_no_empty _ _⟩
  simp only [chunkBufferStep, hbuf]
